import Mathlib

/-!
Verification of the hybrid retriever in `src/rag_retriever.py` (RAG-CareQuery).

The Python module is shallowly embedded: each method becomes a total Lean
function over explicit state.  External effects (reading the cache blob,
reading the corpus snapshot, the embedding call plus the vector-store query)
are passed in as `Option`/`Except` values describing their outcome, exactly as
the `try/except` blocks of the source observe them.  Scores are modelled over
`ℚ`.
-/

namespace CareQuery

/-- Scalar-valued metadata mapping attached to a document (the `metadata`
component of the `{id, content, metadata}` triples of the data model). -/
abbrev Metadata := List (String × String)

/-- A candidate produced by one search path before fusion: the dicts built in
`_vector_search` / `_bm25_search` (`{'id', 'content', 'metadata', 'score'}`). -/
structure Candidate where
  id : String
  content : String
  metadata : Metadata
  score : ℚ
  deriving Repr, DecidableEq

/-- A document snapshot entry as stored in `doc_registry`
(`{'id', 'content', 'metadata'}`). -/
structure Doc where
  id : String
  content : String
  metadata : Metadata
  deriving Repr, DecidableEq

/-- The full corpus read `self.vector_store.collection.get()` used at index
build time (parallel lists `ids`, `documents`, `metadatas`). -/
structure Snapshot where
  ids : List String
  documents : List String
  metadatas : List Metadata
  deriving Repr, DecidableEq

/-- The one-query slice of a Chroma `collection.query` response as consumed by
`_vector_search` (`v_res['ids'][0]`, `v_res['documents'][0]`,
`v_res['metadatas'][0]`, `v_res['distances'][0]`). -/
structure QueryResponse where
  ids : List String
  documents : List String
  metadatas : List Metadata
  distances : List ℚ
  deriving Repr, DecidableEq

/-- Modelled from the spec: `rank_bm25.BM25Okapi` is an external library whose
code is not in the repository.  The spec describes the Lexical Index as an
in-memory term-frequency ranking structure (BM25-style scoring) whose scoring
call returns one score per document; it is modelled as a term-frequency scorer
holding the tokenized corpus. -/
structure BM25Okapi where
  corpus : List (List String)
  deriving Repr, DecidableEq

/-- Modelled from the spec: `BM25Okapi.get_scores` returns one score per
corpus document; modelled as the count of document tokens occurring in the
query (the precise BM25 weighting lives in the external library). -/
def BM25Okapi.get_scores (b : BM25Okapi) (query : List String) : List ℚ :=
  b.corpus.map (fun doc => ((doc.filter (fun t => query.contains t)).length : ℚ))

/-- The state owned by `RAGRetriever`: `self.bm25` (absent until a successful
build or cache load) and `self.doc_registry`.  The registry is a Python dict
with dense integer keys `0..n-1`; it is modelled as a list, with `l[i]?`
playing `dict.get(idx)` (absent key ↦ `none`). -/
structure RAGRetriever where
  bm25 : Option BM25Okapi
  doc_registry : List Doc
  deriving Repr, DecidableEq

/-- The pickled cache blob `{'bm25': ..., 'doc_registry': ...}`. -/
structure CacheRecord where
  bm25 : BM25Okapi
  doc_registry : List Doc
  deriving Repr, DecidableEq

/-- Python `str.split(" ")` on the character list: cut at every single space,
preserving empty pieces (`"a  b".split(" ") == ["a", "", "b"]`,
`"".split(" ") == [""]`). -/
def splitSpace : List Char → List String
  | [] => [""]
  | c :: cs =>
      if c = ' ' then "" :: splitSpace cs
      else
        match splitSpace cs with
        | [] => [String.mk [c]]
        | t :: ts => (String.mk (c :: t.data)) :: ts

/-- Whitespace tokenization `doc.split(" ")`, used both at build time
(`tokenized_corpus`) and at query time (`tokenized_query`). -/
def tokenize (doc : String) : List String := splitSpace doc.data

/-- The registry loop `for idx, (doc_id, doc_content, meta) in
enumerate(zip(ids, documents, metadatas))`; like Python `zip` it truncates to
the shortest input.  The position of an entry is its list index. -/
def buildRegistry : List String → List String → List Metadata → List Doc
  | doc_id :: ids, doc :: docs, meta :: ms =>
      ⟨doc_id, doc, meta⟩ :: buildRegistry ids docs ms
  | _, _, _ => []

/-- Embeds `_initialize_bm25`.  `cache` is the outcome of reading the cache
blob: `none` when the file does not exist, `some (.error e)` when it exists
but unpickling raises, `some (.ok record)` when it loads.  `snapshot` is the
outcome of `collection.get()`.  Returns the resulting retriever state together
with the record written back to the cache, if any; every exception in the
source is caught, so the embedding is a total function. -/
def initBM25 (cache : Option (Except String CacheRecord))
    (snapshot : Except String Snapshot) : RAGRetriever × Option CacheRecord :=
  match cache with
  | some (.ok data) => (⟨some data.bm25, data.doc_registry⟩, none)
  | _ =>
    match snapshot with
    | .error _ => (⟨none, []⟩, none)
    | .ok result =>
      if result.documents.isEmpty then
        (⟨none, []⟩, none)
      else
        let bm25 := BM25Okapi.mk (result.documents.map tokenize)
        let registry := buildRegistry result.ids result.documents result.metadatas
        (⟨some bm25, registry⟩, some ⟨bm25, registry⟩)

/-- The result loop of `_vector_search`: walks the four parallel lists of the
response, stopping as soon as one runs out (in Python an `IndexError` raised
mid-loop is caught by the surrounding `except`, returning the partial list).
Each appended dict carries `'score': v_res['distances'][0][i]`. -/
def collectVector : List String → List String → List Metadata → List ℚ → List Candidate
  | doc_id :: ids, doc :: docs, meta :: ms, d :: ds =>
      ⟨doc_id, doc, meta, d⟩ :: collectVector ids docs ms ds
  | _, _, _, _ => []

/-- Embeds `_vector_search`.  `res` is the outcome of the external calls in
its `try` block (query embedding plus `collection.query`): any exception
yields `.error`, which the source converts to the empty candidate list. -/
def vector_search (res : Except String QueryResponse) : List Candidate :=
  match res with
  | .error _ => []
  | .ok v =>
      if v.ids.isEmpty then []
      else collectVector v.ids v.documents v.metadatas v.distances

/-- Insertion step of an argsort by ascending score, for `np.argsort`. -/
def insertIdxAsc (scores : List ℚ) (i : Nat) : List Nat → List Nat
  | [] => [i]
  | j :: js =>
      if scores.getD i 0 < scores.getD j 0 then i :: j :: js
      else j :: insertIdxAsc scores i js

/-- Argsort (ascending by score) of a list of positions. -/
def argsortAsc (scores : List ℚ) : List Nat → List Nat
  | [] => []
  | i :: is => insertIdxAsc scores i (argsortAsc scores is)

/-- Embeds `np.argsort(doc_scores)[::-1]`: the positions `0..n-1` ordered by
ascending score, then reversed. -/
def argsortDesc (scores : List ℚ) : List Nat :=
  (argsortAsc scores (List.range scores.length)).reverse

/-- Embeds `_bm25_search`: the `if self.bm25:` guard, per-document scores,
descending argsort truncated to `top_k`, then the loop that keeps positions
with a strictly positive score that resolve in `doc_registry`. -/
def bm25_search (r : RAGRetriever) (query : String) (top_k : Nat) : List Candidate :=
  match r.bm25 with
  | none => []
  | some bm25 =>
      let doc_scores := bm25.get_scores (tokenize query)
      let top_n := (argsortDesc doc_scores).take top_k
      top_n.filterMap (fun idx =>
        if 0 < doc_scores.getD idx 0 then
          match r.doc_registry[idx]? with
          | some doc_data =>
              some ⟨doc_data.id, doc_data.content, doc_data.metadata,
                    doc_scores.getD idx 0⟩
          | none => none
        else none)

/-- One value of the `fused_scores` dict
(`{'score', 'content', 'metadata'}`). -/
structure FusedEntry where
  score : ℚ
  content : String
  metadata : Metadata
  deriving Repr, DecidableEq

/-- The `fused_scores` dict.  Python dicts preserve insertion order, so it is
modelled as an insertion-ordered association list. -/
abbrev FusedScores := List (String × FusedEntry)

/-- Dict lookup `fused_scores[doc_id]` on the insertion-ordered association
list: the entry of the first pair carrying the key, if any. -/
def findEntry (doc_id : String) : FusedScores → Option FusedEntry
  | [] => none
  | p :: fs => if p.1 = doc_id then some p.2 else findEntry doc_id fs

/-- The insertion-ordered key list of the fused dict
(`fused_scores.keys()`). -/
def keyList (fs : FusedScores) : List String := fs.map Prod.fst

/-- The body of `process_results` for one item: seed a zero-score entry when
the id is new (keeping the first-seen content/metadata), then
`fused_scores[doc_id]['score'] += incr`. -/
def addCandidate (fs : FusedScores) (item : Candidate) (incr : ℚ) : FusedScores :=
  if fs.any (fun p => p.1 == item.id) then
    fs.map (fun p =>
      if p.1 == item.id then (p.1, ⟨p.2.score + incr, p.2.content, p.2.metadata⟩)
      else p)
  else
    fs ++ [(item.id, ⟨incr, item.content, item.metadata⟩)]

/-- The loop `for rank, item in enumerate(results): ... += 1 / (k + rank + 1)`
with `k = 60`, started at rank `rank`. -/
def processFrom (fs : FusedScores) (rank : Nat) : List Candidate → FusedScores
  | [] => fs
  | item :: rest =>
      processFrom (addCandidate fs item (1 / (60 + (rank : ℚ) + 1))) (rank + 1) rest

/-- `process_results` as invoked in `retrieve`: ranks start at 0. -/
def process_results (fs : FusedScores) (results : List Candidate) : FusedScores :=
  processFrom fs 0 results

/-- The fused dict after `process_results(vector_results)` followed by
`process_results(bm25_results)`. -/
def fuse (vector_results bm25_results : List Candidate) : FusedScores :=
  process_results (process_results [] vector_results) bm25_results

/-- Shape of the dicts appended to `final_results`
(`{'id', 'content', 'metadata', 'similarity_score'}`). -/
structure FusedResult where
  id : String
  content : String
  metadata : Metadata
  similarity_score : ℚ
  deriving Repr, DecidableEq

/-- Stable insertion by descending score: the inserted element is placed
before the first element whose score is not larger, so entries already in the
list keep their relative order and an earlier-inserted entry precedes
later-inserted entries of equal score — the behaviour of Python
`sorted(..., reverse=True)`, which is stable. -/
def insertDesc (x : String × FusedEntry) : FusedScores → FusedScores
  | [] => [x]
  | y :: ys =>
      if y.2.score ≤ x.2.score then x :: y :: ys
      else y :: insertDesc x ys

/-- Stable sort by fused score descending, embedding
`sorted(fused_scores.keys(), key=lambda x: fused_scores[x]['score'],
reverse=True)` (keys paired with their entries). -/
def sortDesc : FusedScores → FusedScores
  | [] => []
  | x :: xs => insertDesc x (sortDesc xs)

/-- The tail of `retrieve` after both search paths returned: RRF fusion with
`k = 60`, stable sort by fused score descending, truncation to `top_k`, and
projection to the `final_results` dicts. -/
def fuseAndRank (vector_results bm25_results : List Candidate) (top_k : Nat) :
    List FusedResult :=
  let fused := fuse vector_results bm25_results
  ((sortDesc fused).take top_k).map (fun p => ⟨p.1, p.2.content, p.2.metadata, p.2.score⟩)

/-- Embeds `retrieve(query, top_k, score_threshold)`: fan out to the two
search paths, fuse with RRF, sort, truncate.  `vres` stands for the outcome of
the external embedding and vector-store calls performed inside
`_vector_search`.  `score_threshold` is a parameter of the source method and
appears here exactly as there. -/
def retrieve (r : RAGRetriever) (vres : Except String QueryResponse)
    (query : String) (top_k : Nat) (score_threshold : ℚ) : List FusedResult :=
  let vector_results := vector_search vres
  let bm25_results := bm25_search r query top_k
  fuseAndRank vector_results bm25_results top_k

/-- `retrieve` paired with the post-call state: the method only reads
`self.bm25` and `self.doc_registry` and performs no assignment to them, so the
state after the call is the state before it. -/
def retrieveSt (r : RAGRetriever) (vres : Except String QueryResponse)
    (query : String) (top_k : Nat) (score_threshold : ℚ) :
    List FusedResult × RAGRetriever :=
  (retrieve r vres query top_k score_threshold, r)

/-- The RRF formula as the spec states it (for comparison with the code's
fused dict): over each of the two lists in which the id appears, sum
`1 / (k + rank + 1)` with `k = 60` and `rank` the id's 0-based position in
that list. -/
def specRRF (listA listB : List Candidate) (doc_id : String) : ℚ :=
  (if doc_id ∈ listA.map Candidate.id then
      1 / (60 + (((listA.map Candidate.id).indexOf doc_id : Nat) : ℚ) + 1)
    else 0) +
  (if doc_id ∈ listB.map Candidate.id then
      1 / (60 + (((listB.map Candidate.id).indexOf doc_id : Nat) : ℚ) + 1)
    else 0)

/-! ### Facts about the fused dict -/

theorem any_key_iff (fs : FusedScores) (a : String) :
    fs.any (fun p => p.1 == a) = true ↔ a ∈ keyList fs := by
  induction fs with
  | nil => simp [keyList]
  | cons p fs ih =>
      simp only [List.any_cons, Bool.or_eq_true, beq_iff_eq, keyList, List.map_cons,
        List.mem_cons] at ih ⊢
      constructor
      · rintro (h | h)
        · exact Or.inl h.symm
        · exact Or.inr (ih.1 h)
      · rintro (h | h)
        · exact Or.inl h.symm
        · exact Or.inr (ih.2 h)

theorem findEntry_isSome_iff (fs : FusedScores) (a : String) :
    (findEntry a fs).isSome ↔ a ∈ keyList fs := by
  induction fs with
  | nil => simp [findEntry, keyList]
  | cons p fs ih =>
      by_cases h : p.1 = a
      · subst h
        simp [findEntry, keyList]
      · have h2 : ¬ a = p.1 := fun hh => h hh.symm
        simpa [findEntry, h, keyList, h2] using ih

theorem findEntry_addMap (fs : FusedScores) (b : String) (incr : ℚ) (a : String) :
    findEntry a (fs.map (fun p =>
        if p.1 == b then (p.1, ⟨p.2.score + incr, p.2.content, p.2.metadata⟩) else p)) =
      if a = b then
        (findEntry a fs).map (fun e => ⟨e.score + incr, e.content, e.metadata⟩)
      else findEntry a fs := by
  induction fs with
  | nil => by_cases hab : a = b <;> simp [findEntry, hab]
  | cons p fs ih =>
      simp only [List.map_cons, beq_iff_eq] at ih ⊢
      by_cases hpb : p.1 = b
      · by_cases hab : a = b
        · subst hab
          simp [findEntry, hpb, ih]
        · have hba : ¬ b = a := fun h => hab h.symm
          simp [findEntry, hpb, hba, hab, ih]
      · by_cases hpa : p.1 = a
        · have hab : ¬ a = b := fun h => hpb (hpa.trans h)
          simp [findEntry, hpb, hpa, hab]
        · simp [findEntry, hpb, hpa, ih]

theorem findEntry_append (l₁ l₂ : FusedScores) (a : String) :
    findEntry a (l₁ ++ l₂) = (findEntry a l₁).or (findEntry a l₂) := by
  induction l₁ with
  | nil => simp [findEntry]
  | cons p l₁ ih =>
      by_cases h : p.1 = a
      · simp [findEntry, h]
      · simp [findEntry, h, ih]

theorem findEntry_addCandidate (fs : FusedScores) (item : Candidate) (incr : ℚ)
    (a : String) :
    findEntry a (addCandidate fs item incr) =
      if a = item.id then
        match findEntry a fs with
        | some e => some ⟨e.score + incr, e.content, e.metadata⟩
        | none => some ⟨incr, item.content, item.metadata⟩
      else findEntry a fs := by
  unfold addCandidate
  by_cases hmem : item.id ∈ keyList fs
  · rw [if_pos ((any_key_iff fs item.id).2 hmem)]
    rw [findEntry_addMap fs item.id incr a]
    by_cases hab : a = item.id
    · subst hab
      have hsome : (findEntry item.id fs).isSome :=
        (findEntry_isSome_iff fs item.id).2 hmem
      obtain ⟨e, he⟩ := Option.isSome_iff_exists.1 hsome
      simp [he]
    · simp [hab]
  · rw [if_neg (fun h => hmem ((any_key_iff fs item.id).1 h))]
    rw [findEntry_append]
    by_cases hab : a = item.id
    · subst hab
      have hnone : findEntry item.id fs = none := by
        cases h : findEntry item.id fs with
        | none => rfl
        | some e =>
            exact absurd ((findEntry_isSome_iff fs item.id).1 (by simp [h])) hmem
      simp [hnone, findEntry]
    · have h2 : ¬ item.id = a := fun h => hab h.symm
      simp [hab, findEntry, h2]

theorem findEntry_processFrom_notmem (cs : List Candidate) (fs : FusedScores)
    (rank : Nat) (a : String) (h : a ∉ cs.map Candidate.id) :
    findEntry a (processFrom fs rank cs) = findEntry a fs := by
  induction cs generalizing fs rank with
  | nil => rfl
  | cons c rest ih =>
      simp only [List.map_cons, List.mem_cons, not_or] at h
      rw [processFrom, ih _ _ h.2, findEntry_addCandidate, if_neg h.1]

theorem findEntry_processFrom_score (cs : List Candidate) (fs : FusedScores)
    (rank : Nat) (a : String) (hnd : (cs.map Candidate.id).Nodup)
    (h : a ∈ cs.map Candidate.id) :
    (findEntry a (processFrom fs rank cs)).map FusedEntry.score =
      some ((((findEntry a fs).map FusedEntry.score).getD 0) +
        1 / (60 + ((rank : ℚ) + (((cs.map Candidate.id).indexOf a : Nat) : ℚ)) + 1)) := by
  induction cs generalizing fs rank with
  | nil => simp at h
  | cons c rest ih =>
      simp only [List.map_cons, List.nodup_cons] at hnd
      by_cases hc : a = c.id
      · have hrest : a ∉ rest.map Candidate.id := hc ▸ hnd.1
        rw [processFrom, findEntry_processFrom_notmem rest _ _ _ hrest,
          findEntry_addCandidate, if_pos hc]
        have hidx : (c.id :: rest.map Candidate.id).indexOf a = 0 := by
          rw [hc]
          exact List.indexOf_cons_self _ _
        rw [List.map_cons, hidx]
        cases hfe : findEntry a fs with
        | none => simp
        | some e => simp
      · have hrest : a ∈ rest.map Candidate.id := by
          rcases List.mem_cons.1 h with h0 | h0
          · exact absurd h0 hc
          · exact h0
        rw [processFrom, ih _ _ hnd.2 hrest, findEntry_addCandidate,
          if_neg hc]
        have hidx : (c.id :: rest.map Candidate.id).indexOf a =
            ((rest.map Candidate.id).indexOf a).succ :=
          List.indexOf_cons_ne _ (fun hh => hc hh.symm)
        rw [List.map_cons, hidx]
        congr 1
        push_cast
        ring

theorem fuse_findEntry_score (listA listB : List Candidate)
    (hA : (listA.map Candidate.id).Nodup) (hB : (listB.map Candidate.id).Nodup)
    (a : String)
    (h : a ∈ listA.map Candidate.id ∨ a ∈ listB.map Candidate.id) :
    (findEntry a (fuse listA listB)).map FusedEntry.score = some (specRRF listA listB a) := by
  unfold fuse process_results
  by_cases hb : a ∈ listB.map Candidate.id
  · rw [findEntry_processFrom_score listB _ _ _ hB hb]
    by_cases ha : a ∈ listA.map Candidate.id
    · rw [findEntry_processFrom_score listA _ _ _ hA ha]
      unfold specRRF
      rw [if_pos ha, if_pos hb]
      simp [findEntry]
    · rw [findEntry_processFrom_notmem listA _ _ _ ha]
      unfold specRRF
      rw [if_neg ha, if_pos hb]
      simp [findEntry]
  · have ha : a ∈ listA.map Candidate.id := h.resolve_right hb
    rw [findEntry_processFrom_notmem listB _ _ _ hb,
      findEntry_processFrom_score listA _ _ _ hA ha]
    unfold specRRF
    rw [if_pos ha, if_neg hb]
    simp [findEntry]

theorem keyList_addCandidate (fs : FusedScores) (item : Candidate) (incr : ℚ) :
    keyList (addCandidate fs item incr) =
      if item.id ∈ keyList fs then keyList fs else keyList fs ++ [item.id] := by
  unfold addCandidate
  by_cases h : item.id ∈ keyList fs
  · rw [if_pos ((any_key_iff fs item.id).2 h), if_pos h]
    simp only [keyList, List.map_map]
    refine List.map_congr_left (fun p _ => ?_)
    by_cases hp : p.1 = item.id <;> simp [hp]
  · rw [if_neg (fun hh => h ((any_key_iff fs item.id).1 hh)), if_neg h]
    simp [keyList]

theorem mem_keyList_processFrom (cs : List Candidate) (fs : FusedScores)
    (rank : Nat) (a : String) (h : a ∈ keyList (processFrom fs rank cs)) :
    a ∈ keyList fs ∨ a ∈ cs.map Candidate.id := by
  induction cs generalizing fs rank with
  | nil => exact Or.inl h
  | cons c rest ih =>
      rw [processFrom] at h
      rcases ih _ _ h with h1 | h1
      · rw [keyList_addCandidate] at h1
        by_cases hm : c.id ∈ keyList fs
        · rw [if_pos hm] at h1
          exact Or.inl h1
        · rw [if_neg hm] at h1
          rcases List.mem_append.1 h1 with h2 | h2
          · exact Or.inl h2
          · simp only [List.mem_singleton] at h2
            exact Or.inr (by simp [h2])
      · exact Or.inr (by simp [h1])

theorem keyList_processFrom_nodup (cs : List Candidate) (fs : FusedScores)
    (rank : Nat) (h : (keyList fs).Nodup) :
    (keyList (processFrom fs rank cs)).Nodup := by
  induction cs generalizing fs rank with
  | nil => exact h
  | cons c rest ih =>
      rw [processFrom]
      refine ih _ _ ?_
      rw [keyList_addCandidate]
      by_cases hm : c.id ∈ keyList fs
      · rw [if_pos hm]; exact h
      · rw [if_neg hm]
        simp [List.nodup_append, h, hm]

theorem findEntry_eq_of_mem (fs : FusedScores) (a : String) (e : FusedEntry)
    (hnd : (keyList fs).Nodup) (hm : (a, e) ∈ fs) : findEntry a fs = some e := by
  induction fs with
  | nil => simp at hm
  | cons p fs ih =>
      simp only [keyList, List.map_cons, List.nodup_cons] at hnd
      rcases List.mem_cons.1 hm with h | h
      · rw [← h]
        simp [findEntry]
      · have hpa : ¬ p.1 = a := by
          intro hh
          exact hnd.1 (hh ▸ (List.mem_map_of_mem Prod.fst h))
        simp only [findEntry, hpa, if_false]
        exact ih hnd.2 h

theorem score_pos_addCandidate (fs : FusedScores) (item : Candidate) (incr : ℚ)
    (hfs : ∀ p ∈ fs, 0 < p.2.score) (hincr : 0 < incr) :
    ∀ p ∈ addCandidate fs item incr, 0 < p.2.score := by
  intro p hp
  unfold addCandidate at hp
  by_cases h : fs.any (fun q => q.1 == item.id) = true
  · rw [if_pos h] at hp
    obtain ⟨q, hq, hqe⟩ := List.mem_map.1 hp
    by_cases hqi : q.1 = item.id
    · simp only [hqi, beq_self_eq_true, if_true] at hqe
      rw [← hqe]
      exact add_pos (hfs q hq) hincr
    · simp only [beq_iff_eq, hqi, if_false] at hqe
      rw [← hqe]
      exact hfs q hq
  · rw [if_neg h] at hp
    rcases List.mem_append.1 hp with h1 | h1
    · exact hfs p h1
    · simp only [List.mem_singleton] at h1
      rw [h1]
      exact hincr

theorem score_pos_processFrom (cs : List Candidate) (fs : FusedScores) (rank : Nat)
    (hfs : ∀ p ∈ fs, 0 < p.2.score) :
    ∀ p ∈ processFrom fs rank cs, 0 < p.2.score := by
  induction cs generalizing fs rank with
  | nil => exact hfs
  | cons c rest ih =>
      rw [processFrom]
      refine ih _ _ (score_pos_addCandidate _ _ _ hfs ?_)
      have hden : (0 : ℚ) < 60 + (rank : ℚ) + 1 := by positivity
      positivity

/-! ### The stable descending sort -/

theorem mem_insertDesc (x : String × FusedEntry) (l : FusedScores)
    (a : String × FusedEntry) : a ∈ insertDesc x l ↔ a = x ∨ a ∈ l := by
  induction l with
  | nil => simp [insertDesc]
  | cons y ys ih =>
      unfold insertDesc
      by_cases h : y.2.score ≤ x.2.score
      · simp [h]
      · rw [if_neg h]
        simp only [List.mem_cons, ih]
        tauto

theorem insertDesc_perm (x : String × FusedEntry) (l : FusedScores) :
    List.Perm (insertDesc x l) (x :: l) := by
  induction l with
  | nil => rfl
  | cons y ys ih =>
      unfold insertDesc
      by_cases h : y.2.score ≤ x.2.score
      · rw [if_pos h]
      · rw [if_neg h]
        exact (ih.cons y).trans (List.Perm.swap x y ys)

theorem sortDesc_perm (l : FusedScores) : List.Perm (sortDesc l) l := by
  induction l with
  | nil => rfl
  | cons x xs ih =>
      exact (insertDesc_perm x (sortDesc xs)).trans (ih.cons x)

theorem sorted_insertDesc (x : String × FusedEntry) (l : FusedScores)
    (h : l.Pairwise (fun p q => q.2.score ≤ p.2.score)) :
    (insertDesc x l).Pairwise (fun p q => q.2.score ≤ p.2.score) := by
  induction l with
  | nil => simp [insertDesc]
  | cons y ys ih =>
      unfold insertDesc
      rcases List.pairwise_cons.1 h with ⟨hy, hys⟩
      by_cases hle : y.2.score ≤ x.2.score
      · rw [if_pos hle]
        refine List.pairwise_cons.2 ⟨?_, h⟩
        intro z hz
        rcases List.mem_cons.1 hz with h1 | h1
        · rw [h1]; exact hle
        · exact (hy z h1).trans hle
      · rw [if_neg hle]
        refine List.pairwise_cons.2 ⟨?_, ih hys⟩
        intro z hz
        rcases (mem_insertDesc x ys z).1 hz with h1 | h1
        · rw [h1]
          exact le_of_lt (lt_of_not_le hle)
        · exact hy z h1

theorem sorted_sortDesc (l : FusedScores) :
    (sortDesc l).Pairwise (fun p q => q.2.score ≤ p.2.score) := by
  induction l with
  | nil => simp [sortDesc]
  | cons x xs ih => exact sorted_insertDesc x (sortDesc xs) ih

theorem filter_score_insertDesc (s₀ : ℚ) (x : String × FusedEntry) (l : FusedScores) :
    (insertDesc x l).filter (fun q => decide (q.2.score = s₀)) =
      if x.2.score = s₀ then
        x :: l.filter (fun q => decide (q.2.score = s₀))
      else l.filter (fun q => decide (q.2.score = s₀)) := by
  induction l with
  | nil =>
      by_cases h : x.2.score = s₀ <;> simp [insertDesc, List.filter_cons, h]
  | cons y ys ih =>
      unfold insertDesc
      by_cases hle : y.2.score ≤ x.2.score
      · rw [if_pos hle]
        by_cases hx : x.2.score = s₀ <;>
          simp [List.filter_cons, hx]
      · rw [if_neg hle]
        have hlt : x.2.score < y.2.score := lt_of_not_le hle
        by_cases hx : x.2.score = s₀
        · have hy : ¬ y.2.score = s₀ := by
            intro hh
            exact absurd (hx ▸ hh ▸ hlt) (lt_irrefl _)
          simp [List.filter_cons, hy, ih, hx]
        · simp [List.filter_cons, ih, hx]

theorem filter_score_sortDesc (s₀ : ℚ) (l : FusedScores) :
    (sortDesc l).filter (fun q => decide (q.2.score = s₀)) =
      l.filter (fun q => decide (q.2.score = s₀)) := by
  induction l with
  | nil => rfl
  | cons x xs ih =>
      rw [sortDesc, filter_score_insertDesc]
      by_cases hx : x.2.score = s₀ <;> simp [List.filter_cons, hx, ih]

/-! ### Claim theorems -/

/-- C1: for every pair of input candidate lists (ids distinct within each
list, as the two search paths produce them) and every candidate id appearing
in either list, the fused score computed by `retrieve`'s fusion step equals
the sum, once per list in which the id appears, of `1 / (k + rank + 1)` with
`k = 60` and `rank` the id's 0-based position within that list. -/
theorem claim1_rrf_score (listA listB : List Candidate)
    (hA : (listA.map Candidate.id).Nodup) (hB : (listB.map Candidate.id).Nodup)
    (doc_id : String)
    (h : doc_id ∈ listA.map Candidate.id ∨ doc_id ∈ listB.map Candidate.id) :
    (findEntry doc_id (fuse listA listB)).map FusedEntry.score =
      some (specRRF listA listB doc_id) :=
  fuse_findEntry_score listA listB hA hB doc_id h

/-- Witness for C1 at a concrete input: an id at rank 0 in the vector list and
absent from the lexical list receives a fused score of exactly `1/61`. -/
theorem claim1_rrf_score_witness :
    ((findEntry "x" (fuse [⟨"x", "cx", [], 1/2⟩] [])).map FusedEntry.score =
        some (specRRF [⟨"x", "cx", [], 1/2⟩] [] "x")) ∧
      specRRF [⟨"x", "cx", [], 1/2⟩] [] "x" = 1/61 :=
  ⟨claim1_rrf_score [⟨"x", "cx", [], 1/2⟩] [] (by decide) (by decide) "x"
      (Or.inl (by decide)),
    by norm_num [specRRF, List.indexOf_cons_self]⟩

/-- C2: `retrieve` never reads `score_threshold`; its output is identical for
any two threshold values, so no threshold filtering is applied to the fused
score in the hybrid retrieval path. -/
theorem claim2_threshold_ignored (r : RAGRetriever)
    (vres : Except String QueryResponse) (query : String) (top_k : Nat)
    (t₁ t₂ : ℚ) :
    retrieve r vres query top_k t₁ = retrieve r vres query top_k t₂ := rfl

/-- C5: every entry of the fused dict carries a strictly positive score, and
an id present in both input candidate lists receives a fused score at least as
large as the fused score it would receive from either list alone. -/
theorem claim5_positive_monotone (listA listB : List Candidate)
    (hA : (listA.map Candidate.id).Nodup) (hB : (listB.map Candidate.id).Nodup) :
    (∀ p ∈ fuse listA listB, 0 < p.2.score) ∧
    ∀ doc_id, doc_id ∈ listA.map Candidate.id → doc_id ∈ listB.map Candidate.id →
      ∃ sAB sA sB,
        (findEntry doc_id (fuse listA listB)).map FusedEntry.score = some sAB ∧
        (findEntry doc_id (fuse listA [])).map FusedEntry.score = some sA ∧
        (findEntry doc_id (fuse [] listB)).map FusedEntry.score = some sB ∧
        sA ≤ sAB ∧ sB ≤ sAB := by
  constructor
  · intro p hp
    have h0 : ∀ q ∈ ([] : FusedScores), 0 < q.2.score := by simp
    have h1 := score_pos_processFrom listA [] 0 h0
    have h2 := score_pos_processFrom listB (processFrom [] 0 listA) 0 h1
    exact h2 p hp
  · intro doc_id ha hb
    have hApos : (0:ℚ) ≤
        1 / (60 + (((listA.map Candidate.id).indexOf doc_id : Nat) : ℚ) + 1) := by
      positivity
    have hBpos : (0:ℚ) ≤
        1 / (60 + (((listB.map Candidate.id).indexOf doc_id : Nat) : ℚ) + 1) := by
      positivity
    refine ⟨specRRF listA listB doc_id, specRRF listA [] doc_id,
      specRRF [] listB doc_id,
      fuse_findEntry_score _ _ hA hB _ (Or.inl ha),
      fuse_findEntry_score _ _ hA (by simp) _ (Or.inl ha),
      fuse_findEntry_score _ _ (by simp) hB _ (Or.inr hb), ?_, ?_⟩
    · unfold specRRF
      rw [if_pos ha, if_pos hb]
      simp only [List.map_nil, List.not_mem_nil, if_false]
      linarith
    · unfold specRRF
      rw [if_pos ha, if_pos hb]
      simp only [List.map_nil, List.not_mem_nil, if_false]
      linarith

/-- Witness for C5 at concrete inputs sharing the id `"x"`. -/
theorem claim5_positive_monotone_witness :
    (∀ p ∈ fuse [⟨"x", "cx", [], 1/2⟩] [⟨"x", "cx", [], 2⟩], 0 < p.2.score) ∧
    ∀ doc_id, doc_id ∈ [Candidate.mk "x" "cx" [] (1/2)].map Candidate.id →
      doc_id ∈ [Candidate.mk "x" "cx" [] 2].map Candidate.id →
      ∃ sAB sA sB,
        (findEntry doc_id (fuse [⟨"x", "cx", [], 1/2⟩] [⟨"x", "cx", [], 2⟩])).map
            FusedEntry.score = some sAB ∧
        (findEntry doc_id (fuse [⟨"x", "cx", [], 1/2⟩] [])).map
            FusedEntry.score = some sA ∧
        (findEntry doc_id (fuse [] [⟨"x", "cx", [], 2⟩])).map
            FusedEntry.score = some sB ∧
        sA ≤ sAB ∧ sB ≤ sAB :=
  claim5_positive_monotone [⟨"x", "cx", [], 1/2⟩] [⟨"x", "cx", [], 2⟩]
    (by decide) (by decide)

theorem collectVector_getElem? (ids docs : List String) (ms : List Metadata)
    (ds : List ℚ) (i : Nat) (hi : i < ids.length)
    (hd : ids.length ≤ docs.length) (hm : ids.length ≤ ms.length)
    (hs : ids.length ≤ ds.length) :
    (collectVector ids docs ms ds)[i]? =
      some ⟨ids.getD i "", docs.getD i "", ms.getD i [], ds.getD i 0⟩ := by
  induction ids generalizing docs ms ds i with
  | nil => simp at hi
  | cons id0 ids ih =>
      cases docs with
      | nil => simp at hd
      | cons doc0 docs =>
          cases ms with
          | nil => simp at hm
          | cons m0 ms =>
              cases ds with
              | nil => simp at hs
              | cons d0 ds =>
                  cases i with
                  | zero => simp [collectVector]
                  | succ i =>
                      simp only [collectVector, List.getElem?_cons_succ,
                        List.getD_cons_succ]
                      refine ih docs ms ds i ?_ ?_ ?_ ?_
                      · simpa using hi
                      · simpa using hd
                      · simpa using hm
                      · simpa using hs

/-- C3 counterexample: at a concrete query response with distance `1/4`, the
candidate produced by the vector search path carries the raw distance `1/4` as
its score, not the similarity `1 − 1/4 = 3/4` the claim derives. -/
theorem claim3_counterexample :
    ((vector_search (.ok ⟨["a"], ["doc a"], [[]], [1/4]⟩)).map Candidate.score =
        [(1/4 : ℚ)]) ∧
      ¬ (vector_search (.ok ⟨["a"], ["doc a"], [[]], [1/4]⟩)).map Candidate.score =
          [1 - (1/4 : ℚ)] := by
  constructor
  · rfl
  · intro h
    simp [vector_search, collectVector] at h
    norm_num at h

/-- C3 (amended): each candidate produced by the vector search path carries
the raw distance as its score (no `1 − distance` transform is applied), and
its 0-based returned position in the response is its rank. -/
theorem claim3_raw_distance (v : QueryResponse) (i : Nat) (hi : i < v.ids.length)
    (hd : v.ids.length ≤ v.documents.length)
    (hm : v.ids.length ≤ v.metadatas.length)
    (hs : v.ids.length ≤ v.distances.length) :
    (vector_search (.ok v))[i]? =
      some ⟨v.ids.getD i "", v.documents.getD i "", v.metadatas.getD i [],
            v.distances.getD i 0⟩ := by
  have hne : v.ids.isEmpty = false := by
    cases hv : v.ids with
    | nil => rw [hv] at hi; simp at hi
    | cons a as => rfl
  show (if v.ids.isEmpty then []
      else collectVector v.ids v.documents v.metadatas v.distances)[i]? = _
  rw [hne]
  simp only [Bool.false_eq_true, if_false]
  exact collectVector_getElem? _ _ _ _ i hi hd hm hs

/-- Witness for the amended C3 at the counterexample's input. -/
theorem claim3_raw_distance_witness :
    (vector_search (.ok ⟨["a"], ["doc a"], [[]], [1/4]⟩))[0]? =
      some ⟨"a", "doc a", [], (1/4 : ℚ)⟩ :=
  claim3_raw_distance ⟨["a"], ["doc a"], [[]], [1/4]⟩ 0 (by decide) (by decide)
    (by decide) (by decide)

/-- C6: `retrieve` returns at most `top_k` results; every returned id belongs
to the union of the two paths' candidate ids; and when both paths return
empty, the result is the empty sequence (the embedding is a total function, so
no exception is raised). -/
theorem claim6_topk_subset (r : RAGRetriever) (vres : Except String QueryResponse)
    (query : String) (top_k : Nat) (t : ℚ) :
    (retrieve r vres query top_k t).length ≤ top_k ∧
    (∀ res ∈ retrieve r vres query top_k t,
      res.id ∈ (vector_search vres).map Candidate.id ++
        (bm25_search r query top_k).map Candidate.id) ∧
    (vector_search vres = [] → bm25_search r query top_k = [] →
      retrieve r vres query top_k t = []) := by
  refine ⟨?_, ?_, ?_⟩
  · simp only [retrieve, fuseAndRank]
    rw [List.length_map, List.length_take]
    exact min_le_left _ _
  · intro res hres
    simp only [retrieve, fuseAndRank] at hres
    obtain ⟨q, hq, hqe⟩ := List.mem_map.1 hres
    have hq2 : q ∈ sortDesc (fuse (vector_search vres) (bm25_search r query top_k)) :=
      List.take_subset _ _ hq
    have hq3 : q ∈ fuse (vector_search vres) (bm25_search r query top_k) :=
      (sortDesc_perm _).mem_iff.1 hq2
    have hkey : q.1 ∈ keyList (fuse (vector_search vres) (bm25_search r query top_k)) :=
      List.mem_map_of_mem Prod.fst hq3
    have h4 := mem_keyList_processFrom (bm25_search r query top_k)
      (processFrom [] 0 (vector_search vres)) 0 q.1 hkey
    rcases h4 with h5 | h5
    · rcases mem_keyList_processFrom (vector_search vres) [] 0 q.1 h5 with h6 | h6
      · simp [keyList] at h6
      · rw [← hqe]
        exact List.mem_append_left _ h6
    · rw [← hqe]
      exact List.mem_append_right _ h5
  · intro h1 h2
    simp [retrieve, fuseAndRank, h1, h2, fuse, process_results, processFrom, sortDesc]

/-- Witness for C6: a retriever with no index and a failing vector path
returns the empty sequence. -/
theorem claim6_topk_subset_witness :
    retrieve ⟨none, []⟩ (.error "down") "q" 3 0 = [] :=
  (claim6_topk_subset ⟨none, []⟩ (.error "down") "q" 3 0).2.2 rfl rfl

theorem filter_map_id_fused (s₀ : ℚ) (L : FusedScores) :
    ((L.map (fun p =>
        (⟨p.1, p.2.content, p.2.metadata, p.2.score⟩ : FusedResult))).filter
          (fun res => decide (res.similarity_score = s₀))).map FusedResult.id =
      (L.filter (fun q => decide (q.2.score = s₀))).map Prod.fst := by
  induction L with
  | nil => rfl
  | cons p L ih =>
      by_cases hp : p.2.score = s₀
      · simp [List.filter_cons, hp, ih]
      · simp [List.filter_cons, hp, ih]

/-- C4: the fused result sequence returned by `retrieve` is sorted by fused
score descending, and, for every score value, the ids of the returned results
carrying that score are a prefix of the ids carrying that score in the fused
dict — i.e. equal-score results appear in the order their ids were first
observed during fusion (stable tie-break). -/
theorem claim4_sorted_stable (r : RAGRetriever) (vres : Except String QueryResponse)
    (query : String) (top_k : Nat) (t : ℚ) :
    (retrieve r vres query top_k t).Pairwise
      (fun x y => y.similarity_score ≤ x.similarity_score) ∧
    ∀ s₀ : ℚ,
      ((retrieve r vres query top_k t).filter
          (fun res => decide (res.similarity_score = s₀))).map FusedResult.id <+:
        ((fuse (vector_search vres) (bm25_search r query top_k)).filter
            (fun q => decide (q.2.score = s₀))).map Prod.fst := by
  constructor
  · simp only [retrieve, fuseAndRank]
    exact List.Pairwise.map _ (fun a b h => h)
      (List.Pairwise.sublist (List.take_sublist _ _) (sorted_sortDesc _))
  · intro s₀
    simp only [retrieve, fuseAndRank]
    rw [filter_map_id_fused]
    have hpre : List.take top_k
          (sortDesc (fuse (vector_search vres) (bm25_search r query top_k))) <+:
        sortDesc (fuse (vector_search vres) (bm25_search r query top_k)) :=
      ⟨(sortDesc (fuse (vector_search vres) (bm25_search r query top_k))).drop top_k,
        List.take_append_drop top_k _⟩
    have hfil := List.IsPrefix.filter (fun q => decide (q.2.score = s₀)) hpre
    rw [filter_score_sortDesc] at hfil
    obtain ⟨tl, htl⟩ := hfil
    exact ⟨tl.map Prod.fst, by rw [← List.map_append, htl]⟩

/-- C7: if the vector path fails, it contributes the empty candidate list and
`retrieve` returns results drawn solely from the lexical path, each scored
`1 / (k + rank + 1)` for its 0-based lexical rank with `k = 60`. -/
theorem claim7_vector_failure (e : String) (r : RAGRetriever) (query : String)
    (top_k : Nat) (t : ℚ)
    (hnd : ((bm25_search r query top_k).map Candidate.id).Nodup) :
    vector_search (.error e) = [] ∧
    ∀ res ∈ retrieve r (.error e) query top_k t,
      res.id ∈ (bm25_search r query top_k).map Candidate.id ∧
      res.similarity_score =
        1 / (60 + ((((bm25_search r query top_k).map Candidate.id).indexOf
          res.id : Nat) : ℚ) + 1) := by
  refine ⟨rfl, ?_⟩
  intro res hres
  simp only [retrieve, fuseAndRank] at hres
  obtain ⟨q, hq, hqe⟩ := List.mem_map.1 hres
  have hq2 : q ∈ sortDesc (fuse (vector_search (.error e)) (bm25_search r query top_k)) :=
    List.take_subset _ _ hq
  have hq3 : q ∈ fuse (vector_search (.error e)) (bm25_search r query top_k) :=
    (sortDesc_perm _).mem_iff.1 hq2
  have hkey : q.1 ∈ keyList (fuse (vector_search (.error e)) (bm25_search r query top_k)) :=
    List.mem_map_of_mem Prod.fst hq3
  have hmem : q.1 ∈ (bm25_search r query top_k).map Candidate.id := by
    rcases mem_keyList_processFrom (bm25_search r query top_k)
        (processFrom [] 0 (vector_search (.error e))) 0 q.1 hkey with h5 | h5
    · rcases mem_keyList_processFrom (vector_search (.error e)) [] 0 q.1 h5 with h6 | h6
      · simp [keyList] at h6
      · simp [vector_search] at h6
    · exact h5
  have hnodup : (keyList (fuse (vector_search (.error e))
      (bm25_search r query top_k))).Nodup := by
    refine keyList_processFrom_nodup _ _ _ (keyList_processFrom_nodup _ _ _ ?_)
    simp [keyList]
  have hlook : findEntry q.1 (fuse (vector_search (.error e))
      (bm25_search r query top_k)) = some q.2 :=
    findEntry_eq_of_mem _ _ _ hnodup hq3
  have hspec := fuse_findEntry_score (vector_search (.error e))
    (bm25_search r query top_k) (by simp [vector_search]) hnd q.1 (Or.inr hmem)
  rw [hlook] at hspec
  have hscore : q.2.score =
      specRRF (vector_search (.error e)) (bm25_search r query top_k) q.1 := by
    simpa using hspec
  constructor
  · rw [← hqe]
    exact hmem
  · rw [← hqe]
    show q.2.score = _
    rw [hscore]
    unfold specRRF
    rw [if_neg (by simp [vector_search]), if_pos hmem]
    ring

/-- Witness for C7: a two-document corpus whose lexical path matches one
document; with the vector path failing, the returned score is the lexical-only
RRF value. -/
theorem claim7_vector_failure_witness :
    vector_search (.error "boom") = [] ∧
    ∀ res ∈ retrieve ⟨some ⟨[["a", "b"], ["c"]]⟩,
        [⟨"d1", "a b", []⟩, ⟨"d2", "c", []⟩]⟩ (.error "boom") "a" 5 0,
      res.id ∈ (bm25_search ⟨some ⟨[["a", "b"], ["c"]]⟩,
        [⟨"d1", "a b", []⟩, ⟨"d2", "c", []⟩]⟩ "a" 5).map Candidate.id ∧
      res.similarity_score =
        1 / (60 + ((((bm25_search ⟨some ⟨[["a", "b"], ["c"]]⟩,
          [⟨"d1", "a b", []⟩, ⟨"d2", "c", []⟩]⟩ "a" 5).map Candidate.id).indexOf
          res.id : Nat) : ℚ) + 1) :=
  claim7_vector_failure "boom" ⟨some ⟨[["a", "b"], ["c"]]⟩,
    [⟨"d1", "a b", []⟩, ⟨"d2", "c", []⟩]⟩ "a" 5 0 (by decide)

theorem initBM25_rebuild (cache : Option (Except String CacheRecord))
    (snap : Snapshot) (hc : cache = none ∨ ∃ e, cache = some (.error e))
    (hd : snap.documents ≠ []) :
    initBM25 cache (.ok snap) =
      (⟨some (BM25Okapi.mk (snap.documents.map tokenize)),
        buildRegistry snap.ids snap.documents snap.metadatas⟩,
       some ⟨BM25Okapi.mk (snap.documents.map tokenize),
             buildRegistry snap.ids snap.documents snap.metadatas⟩) := by
  have hemp : snap.documents.isEmpty = false := by
    cases hdoc : snap.documents with
    | nil => exact absurd hdoc hd
    | cons a as => rfl
  rcases hc with hc | ⟨e, hc⟩ <;> subst hc <;> simp [initBM25, hemp]

/-- C8: when the corpus snapshot holds zero documents and the cache misses,
index construction degrades: `bm25` stays absent and the lexical search path
returns the empty candidate list for every query and every `top_k` (the
embedding is total, so no exception is raised). -/
theorem claim8_empty_corpus (cache : Option (Except String CacheRecord))
    (snap : Snapshot) (hc : cache = none ∨ ∃ e, cache = some (.error e))
    (hd : snap.documents = []) :
    (initBM25 cache (.ok snap)).1.bm25 = none ∧
    ∀ query top_k, bm25_search (initBM25 cache (.ok snap)).1 query top_k = [] := by
  have hemp : snap.documents.isEmpty = true := by rw [hd]; rfl
  have hstate : initBM25 cache (.ok snap) = (⟨none, []⟩, none) := by
    rcases hc with hc | ⟨e, hc⟩ <;> subst hc <;> simp [initBM25, hemp]
  rw [hstate]
  exact ⟨rfl, fun query top_k => rfl⟩

/-- Witness for C8: a corrupt cache blob together with an empty snapshot. -/
theorem claim8_empty_corpus_witness :
    ((initBM25 (some (.error "corrupt")) (.ok ⟨[], [], []⟩)).1.bm25 = none) ∧
    ∀ query top_k,
      bm25_search (initBM25 (some (.error "corrupt")) (.ok ⟨[], [], []⟩)).1
        query top_k = [] :=
  claim8_empty_corpus (some (.error "corrupt")) ⟨[], [], []⟩
    (Or.inr ⟨"corrupt", rfl⟩) rfl

/-- C9: a missing or undeserializable cache blob is a cache miss, never fatal:
with a non-empty snapshot the index and registry are rebuilt from the fresh
snapshot read and the rebuilt record is saved back to the cache. -/
theorem claim9_cache_miss_rebuild (cache : Option (Except String CacheRecord))
    (snap : Snapshot) (hc : cache = none ∨ ∃ e, cache = some (.error e))
    (hd : snap.documents ≠ []) :
    initBM25 cache (.ok snap) =
      (⟨some (BM25Okapi.mk (snap.documents.map tokenize)),
        buildRegistry snap.ids snap.documents snap.metadatas⟩,
       some ⟨BM25Okapi.mk (snap.documents.map tokenize),
             buildRegistry snap.ids snap.documents snap.metadatas⟩) :=
  initBM25_rebuild cache snap hc hd

/-- Witness for C9: the absent-blob case over a one-document snapshot. -/
theorem claim9_cache_miss_rebuild_witness :
    initBM25 none (.ok ⟨["d1"], ["a b"], [[]]⟩) =
      (⟨some (BM25Okapi.mk (["a b"].map tokenize)),
        buildRegistry ["d1"] ["a b"] [[]]⟩,
       some ⟨BM25Okapi.mk (["a b"].map tokenize),
             buildRegistry ["d1"] ["a b"] [[]]⟩) :=
  claim9_cache_miss_rebuild none ⟨["d1"], ["a b"], [[]]⟩ (Or.inl rfl) (by decide)

theorem buildRegistry_length (ids docs : List String) (ms : List Metadata)
    (hi : ids.length = docs.length) (hm : ms.length = docs.length) :
    (buildRegistry ids docs ms).length = docs.length := by
  induction ids generalizing docs ms with
  | nil =>
      cases docs with
      | nil => rfl
      | cons d docs => simp at hi
  | cons a ids ih =>
      cases docs with
      | nil => simp at hi
      | cons d docs =>
          cases ms with
          | nil => simp at hm
          | cons m ms =>
              simp only [buildRegistry, List.length_cons]
              rw [ih docs ms (by simpa using hi) (by simpa using hm)]

theorem buildRegistry_getElem? (ids docs : List String) (ms : List Metadata)
    (i : Nat) (hi : ids.length = docs.length) (hm : ms.length = docs.length)
    (h : i < docs.length) :
    (buildRegistry ids docs ms)[i]? =
      some ⟨ids.getD i "", docs.getD i "", ms.getD i []⟩ := by
  induction ids generalizing docs ms i with
  | nil =>
      cases docs with
      | nil => simp at h
      | cons d docs => simp at hi
  | cons a ids ih =>
      cases docs with
      | nil => simp at h
      | cons d docs =>
          cases ms with
          | nil => simp at hm
          | cons m ms =>
              cases i with
              | zero => simp [buildRegistry]
              | succ i =>
                  simp only [buildRegistry, List.getElem?_cons_succ,
                    List.getD_cons_succ]
                  exact ih docs ms i (by simpa using hi) (by simpa using hm)
                    (by simpa using h)

theorem mem_insertIdxAsc (scores : List ℚ) (i : Nat) (l : List Nat) (j : Nat)
    (h : j ∈ insertIdxAsc scores i l) : j = i ∨ j ∈ l := by
  induction l with
  | nil => simpa [insertIdxAsc] using h
  | cons k ks ih =>
      unfold insertIdxAsc at h
      by_cases hc : scores.getD i 0 < scores.getD k 0
      · rw [if_pos hc] at h
        rcases List.mem_cons.1 h with h1 | h1
        · exact Or.inl h1
        · exact Or.inr h1
      · rw [if_neg hc] at h
        rcases List.mem_cons.1 h with h1 | h1
        · exact Or.inr (by simp [h1])
        · rcases ih h1 with h2 | h2
          · exact Or.inl h2
          · exact Or.inr (List.mem_cons_of_mem _ h2)

theorem mem_argsortAsc (scores : List ℚ) (l : List Nat) (j : Nat)
    (h : j ∈ argsortAsc scores l) : j ∈ l := by
  induction l with
  | nil => simpa [argsortAsc] using h
  | cons i is ih =>
      unfold argsortAsc at h
      rcases mem_insertIdxAsc scores i _ j h with h1 | h1
      · simp [h1]
      · exact List.mem_cons_of_mem _ (ih h1)

theorem mem_argsortDesc_lt (scores : List ℚ) (j : Nat)
    (h : j ∈ argsortDesc scores) : j < scores.length := by
  unfold argsortDesc at h
  have h2 := mem_argsortAsc scores _ j (List.mem_reverse.1 h)
  simpa using h2

/-- C10: after a successful build from an `n`-document snapshot, the registry
maps exactly the dense positions `0..n-1` to the `{id, content, metadata}`
snapshots in corpus order; every position the lexical scoring can produce
resolves to a registry entry; and `retrieve` leaves the state (hence the
registry) unchanged. -/
theorem claim10_registry_dense (cache : Option (Except String CacheRecord))
    (snap : Snapshot) (hc : cache = none ∨ ∃ e, cache = some (.error e))
    (hids : snap.ids.length = snap.documents.length)
    (hmet : snap.metadatas.length = snap.documents.length)
    (hne : snap.documents ≠ []) :
    ((initBM25 cache (.ok snap)).1.bm25 =
      some (BM25Okapi.mk (snap.documents.map tokenize))) ∧
    ((initBM25 cache (.ok snap)).1.doc_registry.length = snap.documents.length) ∧
    (∀ i, i < snap.documents.length →
      (initBM25 cache (.ok snap)).1.doc_registry[i]? =
        some ⟨snap.ids.getD i "", snap.documents.getD i "",
              snap.metadatas.getD i []⟩) ∧
    (∀ query top_k idx,
      idx ∈ (argsortDesc ((BM25Okapi.mk (snap.documents.map tokenize)).get_scores
        (tokenize query))).take top_k →
      ((initBM25 cache (.ok snap)).1.doc_registry[idx]?).isSome) ∧
    (∀ vres query top_k t,
      (retrieveSt (initBM25 cache (.ok snap)).1 vres query top_k t).2 =
        (initBM25 cache (.ok snap)).1) := by
  have hre := initBM25_rebuild cache snap hc hne
  rw [hre]
  refine ⟨rfl, buildRegistry_length _ _ _ hids hmet, ?_, ?_, ?_⟩
  · intro i hi
    exact buildRegistry_getElem? _ _ _ i hids hmet hi
  · intro query top_k idx hidx
    have h1 := List.take_subset _ _ hidx
    have h2 := mem_argsortDesc_lt _ _ h1
    have h3 : idx < (buildRegistry snap.ids snap.documents snap.metadatas).length := by
      rw [buildRegistry_length _ _ _ hids hmet]
      simpa [BM25Okapi.get_scores] using h2
    rw [List.getElem?_eq_getElem h3]
    rfl
  · intro vres query top_k t
    rfl

/-- Witness for C10 over a concrete one-document snapshot. -/
theorem claim10_registry_dense_witness :
    ((initBM25 none (.ok ⟨["d1"], ["a b"], [[]]⟩)).1.bm25 =
      some (BM25Okapi.mk (["a b"].map tokenize))) ∧
    ((initBM25 none (.ok ⟨["d1"], ["a b"], [[]]⟩)).1.doc_registry.length = 1) ∧
    (∀ i, i < 1 →
      (initBM25 none (.ok ⟨["d1"], ["a b"], [[]]⟩)).1.doc_registry[i]? =
        some ⟨["d1"].getD i "", ["a b"].getD i "", [[]].getD i []⟩) ∧
    (∀ query top_k idx,
      idx ∈ (argsortDesc ((BM25Okapi.mk (["a b"].map tokenize)).get_scores
        (tokenize query))).take top_k →
      ((initBM25 none (.ok ⟨["d1"], ["a b"], [[]]⟩)).1.doc_registry[idx]?).isSome) ∧
    (∀ vres query top_k t,
      (retrieveSt (initBM25 none (.ok ⟨["d1"], ["a b"], [[]]⟩)).1 vres query
        top_k t).2 = (initBM25 none (.ok ⟨["d1"], ["a b"], [[]]⟩)).1) :=
  claim10_registry_dense none ⟨["d1"], ["a b"], [[]]⟩ (Or.inl rfl) (by decide)
    (by decide) (by decide)

end CareQuery
